import Mathlib

/-!
# Verification of the Content Extraction & Sanitization Engine

A shallow embedding of the `ContentExtractor` class from
`src/utils/dom-utils.js` of the reading-assistant repository, together with
proofs settling the specification claims about the Locator cascade
(selector match, text-density scan, largest-valid-block scan), the validity
filter, and the Sanitizer (noise removal, attribute stripping, image
normalization).

Modelling conventions:
* A DOM node is either an element (with a tag name, an attribute list and a
  child list) or a text node.  `Node` and `NodeList` form a mutual
  inductive so that every operation is structurally recursive and
  kernel-evaluable.  Every node carries a numeric node identity `nid`;
  `cloneNode` allocates fresh identities from a counter, which models the
  fact that a deep clone shares no object identity with the original.
* `textContent` is modelled as the concatenation of all text-node data in
  tree order, represented as a `List Char`; `String.prototype.trim` is
  modelled by dropping whitespace characters from both ends of that list.
  `.length` of a JavaScript string is the character count (all strings used
  here are within the BMP, where JS UTF-16 length equals character count).
* CSS selectors are restricted to the exact shapes occurring in the source
  (tag, `.class`, `#id`, `[attr="v"]`, `[attr*="sub"]`), represented by the
  `Selector` datatype.  `querySelector`/`querySelectorAll` on the document
  search all elements in document (pre-)order; on an element they search
  proper descendants only, exactly as in the DOM.
* The `TreeWalker` used by `cleanAttributes` never returns its root from
  `nextNode()`, so attribute stripping applies to proper descendants only;
  the embedding mirrors this.
* The reflected IDL attributes `img.loading` / `img.alt` are modelled as
  content-attribute lookups: the guard `!img.loading` holds iff the
  attribute is absent or has the empty value.
* JavaScript numbers arising here are integer character counts and their
  quotients; they are modelled exactly in `ℚ`.
-/

mutual

/-- A DOM node: an element with tag, attributes and children, or a text
node.  `nid` is the node identity (a JavaScript object identity). -/
inductive Node where
  | elem (nid : Nat) (tag : String) (attrs : List (String × String)) (children : NodeList)
  | text (nid : Nat) (s : String)

/-- A list of sibling DOM nodes. -/
inductive NodeList where
  | nil
  | cons (c : Node) (cs : NodeList)

end

/-- Build a `NodeList` from a `List Node` (used to write example trees). -/
def nodesOf : List Node → NodeList
  | [] => .nil
  | c :: cs => .cons c (nodesOf cs)

/-- Tag name of a node (empty for text nodes). -/
def tagOf : Node → String
  | .elem _ t _ _ => t
  | .text _ _ => ""

/-- Attribute list of a node (empty for text nodes). -/
def attrsOf : Node → List (String × String)
  | .elem _ _ a _ => a
  | .text _ _ => []

/-- Whether a node is an element. -/
def isElem : Node → Bool
  | .elem _ _ _ _ => true
  | .text _ _ => false

mutual

/-- `node.textContent`: concatenated text-node data in tree order. -/
def textChars : Node → List Char
  | .text _ s => s.data
  | .elem _ _ _ cs => textCharsL cs

/-- `textContent` of a list of sibling nodes. -/
def textCharsL : NodeList → List Char
  | .nil => []
  | .cons c cs => textChars c ++ textCharsL cs

end

/-- `String.prototype.trim`: drop whitespace from both ends. -/
def trimChars (l : List Char) : List Char :=
  ((l.dropWhile Char.isWhitespace).reverse.dropWhile Char.isWhitespace).reverse

mutual

/-- All element nodes of a subtree in document (pre-)order, the root
included when it is an element. -/
def allElems : Node → List Node
  | .text _ _ => []
  | .elem i t a cs => .elem i t a cs :: allElemsL cs

/-- All element nodes of a list of sibling subtrees in document order. -/
def allElemsL : NodeList → List Node
  | .nil => []
  | .cons c cs => allElems c ++ allElemsL cs

end

/-- `element.querySelectorAll('*')` domain: the proper-descendant elements
of a node, in document order (the node itself excluded). -/
def properDesc : Node → List Node
  | .text _ _ => []
  | .elem _ _ _ cs => allElemsL cs

/-- The CSS selector shapes occurring in `ContentExtractor`:
tag selectors, `.class`, `#id`, `[attr="value"]`, `[attr*="substring"]`. -/
inductive Selector where
  | tagSel (t : String)
  | classSel (c : String)
  | idSel (i : String)
  | attrEq (n v : String)
  | attrContains (n sub : String)
deriving DecidableEq

/-- `element.getAttribute(n)`. -/
def getAttr (n : String) (a : List (String × String)) : Option String :=
  (a.find? (fun p => p.1 == n)).map (fun p => p.2)

/-- Split a character list on whitespace (for class-token matching). -/
def wsSplit : List Char → List (List Char)
  | [] => [[]]
  | c :: cs =>
      let r := wsSplit cs
      if c.isWhitespace then [] :: r
      else
        match r with
        | h :: t => (c :: h) :: t
        | [] => [[c]]

/-- Substring containment on character lists (for `[attr*="sub"]`). -/
def charsContain (sub : List Char) : List Char → Bool
  | [] => sub == []
  | c :: cs => sub.isPrefixOf (c :: cs) || charsContain sub cs

/-- Whether a selector matches an element described by tag and attributes. -/
def matchSel (s : Selector) (t : String) (a : List (String × String)) : Bool :=
  match s with
  | .tagSel t' => t == t'
  | .classSel c =>
      match getAttr "class" a with
      | some v => (wsSplit v.data).contains c.data
      | none => false
  | .idSel i => getAttr "id" a == some i
  | .attrEq n v => getAttr n a == some v
  | .attrContains n sub =>
      match getAttr n a with
      | some v => charsContain sub.data v.data
      | none => false

/-- Whether a selector matches a node (text nodes never match). -/
def matchesNode (s : Selector) : Node → Bool
  | .elem _ t a _ => matchSel s t a
  | .text _ _ => false

/-- `this.contentSelectors`: the stage-1 selector list, in priority order. -/
def contentSelectors : List Selector :=
  [.tagSel "article", .attrEq "role" "main", .classSel "post-content",
   .classSel "entry-content", .classSel "article-content", .classSel "content",
   .classSel "main-content", .idSel "content", .classSel "post-body",
   .classSel "article-body"]

/-- `this.noiseSelectors`: the noise-removal selector list, in source order. -/
def noiseSelectors : List Selector :=
  [.tagSel "header", .tagSel "nav", .tagSel "aside", .tagSel "footer",
   .classSel "advertisement", .classSel "ads", .classSel "sidebar",
   .classSel "social-share", .classSel "comments", .classSel "related-posts",
   .classSel "popup", .classSel "modal", .classSel "overlay",
   .attrContains "class" "ad-", .attrContains "id" "ad-",
   .attrContains "class" "banner", .attrContains "class" "promo",
   .classSel "cookie-notice", .classSel "newsletter",
   .classSel "share-buttons", .classSel "social-buttons"]

/-- `this.textDensityThreshold = 25`. -/
def textDensityThreshold : ℚ := 25

/-- `allowedAttributes` of `cleanAttributes`. -/
def allowedAttributes : List String := ["src", "alt", "href", "title"]

/-- `element.textContent.trim().length`: trimmed text length. -/
def textLen (e : Node) : Nat := (trimChars (textChars e)).length

/-- Summed `link.textContent.length` over `element.querySelectorAll('a')`
(the anchor text is not trimmed in the source). -/
def anchorLen (e : Node) : Nat :=
  ((properDesc e).filter (fun d => tagOf d == "a")).foldl
    (fun s d => s + (textChars d).length) 0

/-- `element.querySelectorAll('*').length`: descendant element count. -/
def descCount (e : Node) : Nat := (properDesc e).length

/-- `calculateTextDensity`: `(textLength - linkLength) / tagCount` when
`tagCount > 0`, else `0`. -/
def calculateTextDensity (e : Node) : ℚ :=
  let textDensity : ℚ := (textLen e : ℚ) - (anchorLen e : ℚ)
  if 0 < descCount e then textDensity / (descCount e : ℚ) else 0

/-- Body of `isValidContent` after the null guard: trimmed text length at
least 100, and link ratio `linkTextLength / text.length` not above `0.5`. -/
def isValidElem (e : Node) : Bool :=
  if textLen e < 100 then false
  else if (anchorLen e : ℚ) / (textLen e : ℚ) > 1 / 2 then false
  else true

/-- `isValidContent`: false on a null element, otherwise `isValidElem`. -/
def isValidContent : Option Node → Bool
  | none => false
  | some e => isValidElem e

/-- `document.querySelector(sel)`: first matching element in document
order.  A document is a list of root nodes. -/
def querySelector (doc : NodeList) (s : Selector) : Option Node :=
  (allElemsL doc).find? (fun e => matchesNode s e)

/-- `findContentBySelectors`: first selector (in priority order) whose
first document-order match passes the validity filter. -/
def findContentBySelectors (doc : NodeList) : Option Node :=
  contentSelectors.findSome? (fun s =>
    match querySelector doc s with
    | some e => if isValidElem e then some e else none
    | none => none)

/-- `document.querySelectorAll('div, section, main')`: the stage-2
candidate list, in document order. -/
def stage2Candidates (doc : NodeList) : List Node :=
  (allElemsL doc).filter (fun e =>
    tagOf e == "div" || tagOf e == "section" || tagOf e == "main")

/-- One step of the stage-2 scan: update the best candidate when the score
strictly exceeds both the current best score and the threshold. -/
def densityStep (acc : Option Node × ℚ) (e : Node) : Option Node × ℚ :=
  if calculateTextDensity e > acc.2 ∧ calculateTextDensity e > textDensityThreshold
  then (some e, calculateTextDensity e) else acc

/-- `findContentByTextDensity`: scan the candidates with
`bestCandidate = null`, `bestScore = 0`. -/
def findContentByTextDensity (doc : NodeList) : Option Node :=
  ((stage2Candidates doc).foldl densityStep (none, 0)).1

/-- One step of the stage-3 scan: update when the trimmed text length
strictly exceeds the current maximum and the element is valid. -/
def largestStep (acc : Option Node × Nat) (e : Node) : Option Node × Nat :=
  if textLen e > acc.2 ∧ isValidElem e = true then (some e, textLen e) else acc

/-- `findLargestTextBlock`: scan all elements with
`largestElement = null`, `maxTextLength = 0`. -/
def findLargestTextBlock (doc : NodeList) : Option Node :=
  ((allElemsL doc).foldl largestStep (none, 0)).1

/-- `extractMainContent`: the three-stage cascade, first success wins. -/
def extractMainContent (doc : NodeList) : Option Node :=
  match findContentBySelectors doc with
  | some c => some c
  | none =>
    match findContentByTextDensity doc with
    | some c => some c
    | none => findLargestTextBlock doc

mutual

/-- `content.cloneNode(true)`: a deep copy whose nodes carry fresh
identities allocated from the counter `k`; returns the copy and the next
free identity. -/
def cloneNode : Nat → Node → Node × Nat
  | k, .text _ s => (.text k s, k + 1)
  | k, .elem _ t a cs =>
      let r := cloneNodeL (k + 1) cs
      (.elem k t a r.1, r.2)

/-- Deep copy of a list of sibling subtrees. -/
def cloneNodeL : Nat → NodeList → NodeList × Nat
  | k, .nil => (.nil, k)
  | k, .cons c cs =>
      let r := cloneNode k c
      let r' := cloneNodeL r.2 cs
      (.cons r.1 r'.1, r'.2)

end

mutual

/-- The node identities occurring in a subtree. -/
def nodeIds : Node → List Nat
  | .text i _ => [i]
  | .elem i _ _ cs => i :: nodeIdsL cs

/-- The node identities occurring in a list of sibling subtrees. -/
def nodeIdsL : NodeList → List Nat
  | .nil => []
  | .cons c cs => nodeIds c ++ nodeIdsL cs

end

mutual

/-- Effect of `element.querySelectorAll(sel).forEach(el => el.remove())` on
a subtree: every matching proper descendant is detached together with its
subtree; the root itself is kept even when it matches, because
`querySelectorAll` only returns descendants. -/
def removeMatching (s : Selector) : Node → Node
  | .text i str => .text i str
  | .elem i t a cs => .elem i t a (removeMatchingL s cs)

/-- Noise removal over a list of sibling subtrees: drop matching nodes,
recurse into the kept ones. -/
def removeMatchingL (s : Selector) : NodeList → NodeList
  | .nil => .nil
  | .cons c cs =>
      if matchesNode s c then removeMatchingL s cs
      else .cons (removeMatching s c) (removeMatchingL s cs)

end

/-- The noise-removal loop of `cleanContent`: apply every noise selector in
source order. -/
def removeNoise (t : Node) : Node :=
  noiseSelectors.foldl (fun acc s => removeMatching s acc) t

mutual

/-- Attribute stripping applied to a node and everything below it: keep
only attributes whose names are in `allowedAttributes`. -/
def stripAllTree : Node → Node
  | .text i s => .text i s
  | .elem i t a cs =>
      .elem i t (a.filter (fun p => allowedAttributes.contains p.1)) (stripAllTreeL cs)

/-- Attribute stripping over a list of sibling subtrees. -/
def stripAllTreeL : NodeList → NodeList
  | .nil => .nil
  | .cons c cs => .cons (stripAllTree c) (stripAllTreeL cs)

end

/-- `cleanAttributes(element)`: the `TreeWalker` starts at `element` and
`nextNode()` never returns the root, so only proper descendants are
stripped; the root keeps all its attributes. -/
def cleanAttributes : Node → Node
  | .text i s => .text i s
  | .elem i t a cs => .elem i t a (stripAllTreeL cs)

/-- `el.setAttribute(n, v)` on an attribute list: replace an existing
attribute of that name, else append it. -/
def setAttr (n v : String) (a : List (String × String)) : List (String × String) :=
  if (a.find? (fun p => p.1 == n)).isSome
  then a.map (fun p => if p.1 == n then (n, v) else p)
  else a ++ [(n, v)]

/-- Whether a reflected string attribute is falsy: absent or empty. -/
def attrFalsy (n : String) (a : List (String × String)) : Bool :=
  match getAttr n a with
  | none => true
  | some v => v == ""

/-- The per-image body of `optimizeImages`: set `loading="lazy"` when the
loading attribute is falsy, set a placeholder `alt` when alt is falsy, and
remove the `style` attribute. -/
def imgFix (a : List (String × String)) : List (String × String) :=
  let a1 := if attrFalsy "loading" a then setAttr "loading" "lazy" a else a
  let a2 := if attrFalsy "alt" a1 then setAttr "alt" "图片" a1 else a1
  a2.filter (fun p => ¬ p.1 == "style")

mutual

/-- Image normalization applied to a node and everything below it. -/
def optImgTree : Node → Node
  | .text i s => .text i s
  | .elem i t a cs =>
      .elem i t (if t == "img" then imgFix a else a) (optImgTreeL cs)

/-- Image normalization over a list of sibling subtrees. -/
def optImgTreeL : NodeList → NodeList
  | .nil => .nil
  | .cons c cs => .cons (optImgTree c) (optImgTreeL cs)

end

/-- `optimizeImages(element)`: `element.querySelectorAll('img')` returns
proper descendants only, so the root is left untouched even when it is an
image. -/
def optimizeImages : Node → Node
  | .text i s => .text i s
  | .elem i t a cs => .elem i t a (optImgTreeL cs)

/-- `cleanContent(content)`: null guard, deep copy (with fresh identities
from `k`), noise removal, attribute stripping, image normalization. -/
def cleanContent (k : Nat) : Option Node → Option Node
  | none => none
  | some content =>
      some (optimizeImages (cleanAttributes (removeNoise (cloneNode k content).1)))

/-- Written from the spec's words for stage 2: among the candidates, the
maximum-density candidate whose score strictly exceeds the threshold,
ties broken in favor of the first-encountered candidate. -/
def specStage2Best : List Node → Option Node
  | [] => none
  | e :: rest =>
    match specStage2Best rest with
    | none => if calculateTextDensity e > textDensityThreshold then some e else none
    | some b =>
        if calculateTextDensity e > textDensityThreshold then
          if calculateTextDensity b > calculateTextDensity e then some b else some e
        else some b

/-- Written from the spec's words for stage 3: the element with the
greatest trimmed text length among those passing the validity filter,
first-encountered wins ties; none if no element passes. -/
def specStage3Best : List Node → Option Node
  | [] => none
  | e :: rest =>
    match specStage3Best rest with
    | none => if isValidElem e then some e else none
    | some b =>
        if isValidElem e then
          if textLen b > textLen e then some b else some e
        else some b

/-- Written from the spec's words for the density formula: the summed
trimmed text length of hyperlink descendants. -/
def specAnchorTrimmedLen (e : Node) : Nat :=
  ((properDesc e).filter (fun d => tagOf d == "a")).foldl
    (fun s d => s + (trimChars (textChars d)).length) 0

/-- Written from the spec's words for the density formula:
`(total_text_length - anchor_text_length) / max(1, descendant_element_count)`. -/
def specDensityFormula (e : Node) : ℚ :=
  ((textLen e : ℚ) - (specAnchorTrimmedLen e : ℚ)) / ((max 1 (descCount e) : Nat) : ℚ)

/-- Whether an element matches at least one stage-1 content selector. -/
def matchesSomeContentSel (e : Node) : Bool :=
  contentSelectors.any (fun s => matchesNode s e)

set_option maxRecDepth 100000

/-! ## Claim C10: errors as values -/

/-- Claim C10: the core never raises.  `cleanContent` applied to a null
candidate returns none for every identity counter, and on the empty tree
every Locator stage, and the cascade itself, returns none; all failure
modes are ordinary absent values (all modelled operations are total). -/
theorem claim_C10 :
    (∀ k : Nat, cleanContent k none = none) ∧
    extractMainContent .nil = none ∧
    findContentBySelectors .nil = none ∧
    findContentByTextDensity .nil = none ∧
    findLargestTextBlock .nil = none :=
  ⟨fun _ => rfl, rfl, rfl, rfl, rfl⟩

/-! ## Claim C3: the density formula -/

/-- An element with a five-character text child and no descendant
elements. -/
def c3zeroDesc : Node := .elem 0 "div" [] (nodesOf [.text 1 "hello"])

/-- The spec's concrete density example: one anchor holding 200 characters,
39 empty spans, and an 800-character text node, giving total trimmed text
1000, anchor text 200, and 40 descendant elements. -/
def c3e40 : Node :=
  .elem 0 "div" []
    (nodesOf (.elem 1 "a" [] (nodesOf [.text 2 (String.mk (List.replicate 200 'a'))]) ::
      ((List.range 39).map (fun i => .elem (i + 3) "span" [] .nil) ++
        [.text 100 (String.mk (List.replicate 800 'b'))])))

/-- Claim C3 counterexample: on an element with five characters of text and
zero descendant elements the code yields density 0, while the claimed
formula `(total - anchor) / max(1, count)` yields 5. -/
theorem claim_C3_counterexample :
    calculateTextDensity c3zeroDesc ≠ specDensityFormula c3zeroDesc := by
  have h1 : calculateTextDensity c3zeroDesc = 0 := by with_unfolding_all rfl
  have h2 : specDensityFormula c3zeroDesc = 5 := by with_unfolding_all rfl
  rw [h1, h2]; norm_num

/-- Claim C3 (amended): the density is `(trimmed total text length -
untrimmed anchor text length) / descendant count` when the descendant
count is positive and `0` otherwise (not `max(1, count)`); the spec's
concrete 1000/200/40 example evaluates to 20 and is rejected by the
stage-2 threshold test. -/
theorem claim_C3_amended :
    (∀ e : Node, descCount e = 0 → calculateTextDensity e = 0) ∧
    (∀ e : Node, 0 < descCount e →
      calculateTextDensity e = ((textLen e : ℚ) - (anchorLen e : ℚ)) / (descCount e : ℚ)) ∧
    calculateTextDensity c3e40 = 20 ∧
    ¬ calculateTextDensity c3e40 > textDensityThreshold := by
  refine ⟨?_, ?_, ?_, ?_⟩
  · intro e h; simp [calculateTextDensity, h]
  · intro e h; simp [calculateTextDensity, h]
  · with_unfolding_all rfl
  · have h : calculateTextDensity c3e40 = 20 := by with_unfolding_all rfl
    rw [h, textDensityThreshold]; norm_num

/-- Claim C3 amended, witness: the two implications evaluated at concrete
inputs. -/
theorem claim_C3_witness :
    calculateTextDensity c3zeroDesc = 0 ∧
    calculateTextDensity c3e40 = ((textLen c3e40 : ℚ) - (anchorLen c3e40 : ℚ)) / (descCount c3e40 : ℚ) :=
  ⟨claim_C3_amended.1 c3zeroDesc (by decide),
   claim_C3_amended.2.1 c3e40 (by decide)⟩

/-! ## Claim C9: sign of the density score -/

/-- An element whose only descendant is an anchor with whitespace-padded
text: trimmed total text has 2 characters, untrimmed anchor text has 6. -/
def c9neg : Node := .elem 0 "div" [] (nodesOf [.elem 1 "a" [] (nodesOf [.text 2 "  hi  "])])

/-- A link-free element with five characters of text. -/
def c9plain : Node := .elem 0 "div" [] (nodesOf [.text 1 "hi there"])

/-- Claim C9 counterexample: the density score is negative (-4) on an
element whose untrimmed anchor text exceeds its trimmed total text. -/
theorem claim_C9_counterexample : calculateTextDensity c9neg < 0 := by
  with_unfolding_all rfl

/-- Claim C9 (amended): the density score is non-negative whenever the
summed untrimmed anchor text length does not exceed the trimmed total
text length (the unrestricted claim fails because the anchor sum is not
trimmed while the total is). -/
theorem claim_C9_amended (e : Node) (h : anchorLen e ≤ textLen e) :
    0 ≤ calculateTextDensity e := by
  rw [calculateTextDensity]
  split
  · apply div_nonneg
    · simp only [sub_nonneg]
      exact_mod_cast h
    · positivity
  · exact le_refl 0

/-- Claim C9 amended, witness. -/
theorem claim_C9_witness :
    anchorLen c9plain ≤ textLen c9plain ∧ 0 ≤ calculateTextDensity c9plain :=
  ⟨by decide, claim_C9_amended c9plain (by decide)⟩

/-! ## Claim C5: the validity filter -/

/-- An element with 500 characters of trimmed text of which 260 are anchor
text (ratio 0.52). -/
def c5fail : Node :=
  .elem 0 "div" []
    (nodesOf [.elem 1 "a" [] (nodesOf [.text 2 (String.mk (List.replicate 260 'a'))]),
              .text 3 (String.mk (List.replicate 240 'b'))])

/-- An element with 500 characters of trimmed text of which 250 are anchor
text (ratio exactly 0.5). -/
def c5half : Node :=
  .elem 0 "div" []
    (nodesOf [.elem 1 "a" [] (nodesOf [.text 2 (String.mk (List.replicate 250 'a'))]),
              .text 3 (String.mk (List.replicate 250 'b'))])

/-- Claim C5: the validity filter fails on a null element; fails whenever
the trimmed text length is below 100 regardless of the link ratio; for
text length at least 100 it fails exactly when the link ratio strictly
exceeds 0.5 (so 260 link characters out of 500 fail, and a ratio of
exactly 0.5 passes). -/
theorem claim_C5 :
    isValidContent none = false ∧
    (∀ e : Node, textLen e < 100 → isValidElem e = false) ∧
    (∀ e : Node, 100 ≤ textLen e →
      (anchorLen e : ℚ) / (textLen e : ℚ) > 1 / 2 → isValidElem e = false) ∧
    (∀ e : Node, 100 ≤ textLen e →
      ¬ (anchorLen e : ℚ) / (textLen e : ℚ) > 1 / 2 → isValidElem e = true) ∧
    (∀ e : Node, textLen e = 500 → anchorLen e = 260 → isValidElem e = false) ∧
    (∀ e : Node, 100 ≤ textLen e → 2 * anchorLen e = textLen e → isValidElem e = true) := by
  have hval : ∀ e : Node, ¬ textLen e < 100 →
      ¬ (anchorLen e : ℚ) / (textLen e : ℚ) > 1 / 2 → isValidElem e = true := by
    intro e h1 h2
    simp only [isValidElem, if_neg h1, if_neg h2]
  refine ⟨rfl, ?_, ?_, ?_, ?_, ?_⟩
  · intro e h; simp only [isValidElem, if_pos h]
  · intro e h1 h2
    simp only [isValidElem, if_neg (by omega : ¬ textLen e < 100), if_pos h2]
  · intro e h1 h2; exact hval e (by omega) h2
  · intro e h1 h2
    have hn : ¬ textLen e < 100 := by omega
    simp only [isValidElem, if_neg hn, h1, h2]
    norm_num
  · intro e h1 h2
    have ht : (0 : ℚ) < (textLen e : ℚ) := by
      have : 0 < textLen e := by omega
      exact_mod_cast this
    refine hval e (by omega) ?_
    rw [not_lt, div_le_iff₀ ht]
    have h2' : (2 : ℚ) * (anchorLen e : ℚ) = (textLen e : ℚ) := by exact_mod_cast h2
    linarith

/-- Claim C5 witness: the filter evaluated through the theorem on the
0.52-ratio and the exactly-0.5-ratio elements. -/
theorem claim_C5_witness :
    isValidElem c5fail = false ∧ isValidElem c5half = true :=
  ⟨claim_C5.2.2.2.2.1 c5fail (by decide) (by decide),
   claim_C5.2.2.2.2.2 c5half (by decide) (by decide)⟩

/-! ## Stage-2 scan: fold characterization -/

/-- Scanning from an established best candidate `b` (whose score exceeds
the threshold) yields the spec-side best of the remaining list when that
one strictly beats `b`, else keeps `b`. -/
theorem densityFold_some (l : List Node) (b : Node)
    (hb : calculateTextDensity b > textDensityThreshold) :
    (l.foldl densityStep (some b, calculateTextDensity b)).1 =
      (match specStage2Best l with
       | none => some b
       | some m =>
           if calculateTextDensity m > calculateTextDensity b then some m else some b) := by
  induction l generalizing b with
  | nil => rfl
  | cons e rest ih =>
    simp only [List.foldl_cons, densityStep, specStage2Best]
    by_cases hc : calculateTextDensity e > calculateTextDensity b ∧
        calculateTextDensity e > textDensityThreshold
    · rw [if_pos hc]
      rw [ih e hc.2]
      cases hsr : specStage2Best rest with
      | none => simp [hc.2, hc.1]
      | some m =>
        by_cases hm : calculateTextDensity m > calculateTextDensity e
        · have hmb : calculateTextDensity m > calculateTextDensity b := lt_trans hc.1 hm
          simp [hm, hc.2, hmb]
        · simp [hm, hc.2, hc.1]
    · rw [if_neg hc]
      rw [ih b hb]
      cases hsr : specStage2Best rest with
      | none =>
        by_cases he : calculateTextDensity e > textDensityThreshold
        · have hle : ¬ calculateTextDensity e > calculateTextDensity b := fun h => hc ⟨h, he⟩
          simp [he, hle]
        · simp [he]
      | some m =>
        by_cases he : calculateTextDensity e > textDensityThreshold
        · have hle : ¬ calculateTextDensity e > calculateTextDensity b := fun h => hc ⟨h, he⟩
          by_cases hm : calculateTextDensity m > calculateTextDensity e
          · simp [he, hm]
          · have h1 : ¬ calculateTextDensity m > calculateTextDensity b := by
              push_neg at hm hle ⊢; linarith
            simp [he, hm, hle, h1]
        · simp [he]

/-- The stage-2 fold from the initial state equals the spec-side best. -/
theorem densityFold_none (l : List Node) :
    (l.foldl densityStep (none, 0)).1 = specStage2Best l := by
  induction l with
  | nil => rfl
  | cons e rest ih =>
    simp only [List.foldl_cons, densityStep, specStage2Best]
    by_cases he : calculateTextDensity e > textDensityThreshold
    · have h0 : calculateTextDensity e > (0 : ℚ) :=
        lt_trans (by norm_num [textDensityThreshold]) he
      rw [if_pos (by exact ⟨h0, he⟩)]
      rw [densityFold_some rest e he]
      cases hsr : specStage2Best rest with
      | none => simp [he]
      | some m => simp [he]
    · rw [if_neg (fun h => he h.2)]
      rw [ih]
      cases hsr : specStage2Best rest with
      | none => simp [he]
      | some m => simp [he]

/-- When the spec-side stage-2 best is none, every candidate is at or
below the threshold. -/
theorem specStage2Best_none : ∀ l : List Node, specStage2Best l = none →
    ∀ c ∈ l, calculateTextDensity c ≤ textDensityThreshold := by
  intro l
  induction l with
  | nil => intro _ c hc; cases hc
  | cons e rest ih =>
    intro h c hc
    cases hsr : specStage2Best rest with
    | none =>
      simp only [specStage2Best, hsr] at h
      by_cases he : calculateTextDensity e > textDensityThreshold
      · rw [if_pos he] at h; cases h
      · rcases List.mem_cons.mp hc with rfl | hc'
        · exact not_lt.mp he
        · exact ih hsr c hc'
    | some b =>
      simp only [specStage2Best, hsr] at h
      by_cases he : calculateTextDensity e > textDensityThreshold
      · rw [if_pos he] at h
        by_cases hm : calculateTextDensity b > calculateTextDensity e
        · rw [if_pos hm] at h; cases h
        · rw [if_neg hm] at h; cases h
      · rw [if_neg he] at h; cases h

/-- When the spec-side stage-2 best is `some m`, `m` is a candidate above
the threshold and no candidate scores higher. -/
theorem specStage2Best_mem : ∀ (l : List Node) (m : Node), specStage2Best l = some m →
    m ∈ l ∧ calculateTextDensity m > textDensityThreshold ∧
    ∀ c ∈ l, calculateTextDensity c ≤ calculateTextDensity m := by
  intro l
  induction l with
  | nil => intro m h; cases h
  | cons e rest ih =>
    intro m h
    cases hsr : specStage2Best rest with
    | none =>
      simp only [specStage2Best, hsr] at h
      by_cases he : calculateTextDensity e > textDensityThreshold
      · rw [if_pos he] at h
        cases h
        refine ⟨List.mem_cons_self _ _, he, ?_⟩
        intro c hc
        rcases List.mem_cons.mp hc with rfl | hc'
        · exact le_refl _
        · exact le_trans (specStage2Best_none rest hsr c hc') (le_of_lt he)
      · rw [if_neg he] at h; cases h
    | some b =>
      simp only [specStage2Best, hsr] at h
      obtain ⟨hbmem, hbthr, hbmax⟩ := ih b hsr
      by_cases he : calculateTextDensity e > textDensityThreshold
      · rw [if_pos he] at h
        by_cases hm : calculateTextDensity b > calculateTextDensity e
        · rw [if_pos hm] at h
          cases h
          refine ⟨List.mem_cons_of_mem _ hbmem, hbthr, ?_⟩
          intro c hc
          rcases List.mem_cons.mp hc with rfl | hc'
          · exact le_of_lt hm
          · exact hbmax c hc'
        · rw [if_neg hm] at h
          cases h
          refine ⟨List.mem_cons_self _ _, he, ?_⟩
          intro c hc
          rcases List.mem_cons.mp hc with rfl | hc'
          · exact le_refl _
          · exact le_trans (hbmax c hc') (not_lt.mp hm)
      · rw [if_neg he] at h
        cases h
        refine ⟨List.mem_cons_of_mem _ hbmem, hbthr, ?_⟩
        intro c hc
        rcases List.mem_cons.mp hc with rfl | hc'
        · exact le_trans (not_lt.mp he) (le_of_lt hbthr)
        · exact hbmax c hc'

/-! ## Claim C4: stage 2 of the Locator -/

/-- First stage-2 witness candidate: a div with one empty span and 30
characters of text (density 30). -/
def c4div1 : Node :=
  .elem 1 "div" [] (nodesOf [.elem 2 "span" [] .nil,
                             .text 3 (String.mk (List.replicate 30 'x'))])

/-- Second stage-2 witness candidate: same shape and density 30, later in
document order. -/
def c4div2 : Node :=
  .elem 4 "div" [] (nodesOf [.elem 5 "span" [] .nil,
                             .text 6 (String.mk (List.replicate 30 'y'))])

/-- A document with no stage-1 match and two tied density-30 candidates. -/
def c4doc : NodeList := nodesOf [.elem 0 "html" [] (nodesOf [c4div1, c4div2])]

/-- Claim C4: when stage 1 fails, stage 2 computes exactly the
first-encountered maximum-density candidate with score strictly above the
threshold 25 (a later candidate with an equal score never replaces the
current best); when no candidate exceeds the threshold the cascade falls
through to stage 3, and when stage 2 returns a candidate the cascade
returns it and it is a maximal above-threshold candidate. -/
theorem claim_C4 (doc : NodeList) (h1 : findContentBySelectors doc = none) :
    findContentByTextDensity doc = specStage2Best (stage2Candidates doc) ∧
    (findContentByTextDensity doc = none →
      extractMainContent doc = findLargestTextBlock doc ∧
      ∀ c ∈ stage2Candidates doc, calculateTextDensity c ≤ textDensityThreshold) ∧
    (∀ e, findContentByTextDensity doc = some e →
      extractMainContent doc = some e ∧ e ∈ stage2Candidates doc ∧
      calculateTextDensity e > textDensityThreshold ∧
      ∀ c ∈ stage2Candidates doc, calculateTextDensity c ≤ calculateTextDensity e) := by
  have heq : findContentByTextDensity doc = specStage2Best (stage2Candidates doc) :=
    densityFold_none _
  refine ⟨heq, ?_, ?_⟩
  · intro h2
    constructor
    · simp only [extractMainContent, h1, h2]
    · exact specStage2Best_none _ (heq ▸ h2)
  · intro e he
    obtain ⟨hmem, hthr, hmax⟩ := specStage2Best_mem _ e (heq ▸ he)
    exact ⟨by simp only [extractMainContent, h1, he], hmem, hthr, hmax⟩

/-- Claim C4 witness: on the two-tied-candidates document the scan agrees
with the spec-side best and the cascade returns the first candidate. -/
theorem claim_C4_witness :
    findContentByTextDensity c4doc = specStage2Best (stage2Candidates c4doc) ∧
    extractMainContent c4doc = some c4div1 :=
  ⟨(claim_C4 c4doc rfl).1,
   ((claim_C4 c4doc rfl).2.2 c4div1 (by with_unfolding_all rfl)).1⟩

/-! ## Stage-3 scan: fold characterization -/

/-- A valid element has at least 100 characters of trimmed text. -/
theorem isValidElem_textLen {e : Node} (h : isValidElem e = true) : 100 ≤ textLen e := by
  by_contra hn
  rw [isValidElem, if_pos (by omega : textLen e < 100)] at h
  cases h

/-- Scanning from an established valid best `b` yields the spec-side best
of the remaining list when it is strictly longer than `b`, else keeps
`b`. -/
theorem largestFold_some (l : List Node) (b : Node) (hb : isValidElem b = true) :
    (l.foldl largestStep (some b, textLen b)).1 =
      (match specStage3Best l with
       | none => some b
       | some m => if textLen m > textLen b then some m else some b) := by
  induction l generalizing b with
  | nil => rfl
  | cons e rest ih =>
    simp only [List.foldl_cons, largestStep, specStage3Best]
    by_cases hc : textLen e > textLen b ∧ isValidElem e = true
    · rw [if_pos hc]
      rw [ih e hc.2]
      cases hsr : specStage3Best rest with
      | none => simp [hc.2, hc.1]
      | some m =>
        by_cases hm : textLen m > textLen e
        · have hmb : textLen m > textLen b := lt_trans hc.1 hm
          simp [hm, hc.2, hmb]
        · simp [hm, hc.2, hc.1]
    · rw [if_neg hc]
      rw [ih b hb]
      cases hsr : specStage3Best rest with
      | none =>
        by_cases he : isValidElem e = true
        · have hle : ¬ textLen e > textLen b := fun h => hc ⟨h, he⟩
          simp [he, hle]
        · simp [he]
      | some m =>
        by_cases he : isValidElem e = true
        · have hle : ¬ textLen e > textLen b := fun h => hc ⟨h, he⟩
          by_cases hm : textLen m > textLen e
          · simp [he, hm]
          · have h1 : ¬ textLen m > textLen b := by
              push_neg at hm hle ⊢; omega
            simp [he, hm, hle, h1]
        · simp [he]

/-- The stage-3 fold from the initial state equals the spec-side best. -/
theorem largestFold_none (l : List Node) :
    (l.foldl largestStep (none, 0)).1 = specStage3Best l := by
  induction l with
  | nil => rfl
  | cons e rest ih =>
    simp only [List.foldl_cons, largestStep, specStage3Best]
    by_cases he : isValidElem e = true
    · have h0 : textLen e > 0 := by have := isValidElem_textLen he; omega
      rw [if_pos (by exact ⟨h0, he⟩)]
      rw [largestFold_some rest e he]
      cases hsr : specStage3Best rest with
      | none => simp [he]
      | some m => simp [he]
    · rw [if_neg (fun h => he h.2)]
      rw [ih]
      cases hsr : specStage3Best rest with
      | none => simp [he]
      | some m => simp [he]

/-- When the spec-side stage-3 best is none, every element of the list is
invalid. -/
theorem specStage3Best_none : ∀ l : List Node, specStage3Best l = none →
    ∀ c ∈ l, isValidElem c = false := by
  intro l
  induction l with
  | nil => intro _ c hc; cases hc
  | cons e rest ih =>
    intro h c hc
    cases hsr : specStage3Best rest with
    | none =>
      simp only [specStage3Best, hsr] at h
      by_cases he : isValidElem e = true
      · rw [if_pos he] at h; cases h
      · rcases List.mem_cons.mp hc with rfl | hc'
        · exact Bool.not_eq_true _ ▸ he
        · exact ih hsr c hc'
    | some b =>
      simp only [specStage3Best, hsr] at h
      by_cases he : isValidElem e = true
      · rw [if_pos he] at h
        by_cases hm : textLen b > textLen e
        · rw [if_pos hm] at h; cases h
        · rw [if_neg hm] at h; cases h
      · rw [if_neg he] at h; cases h

/-- When the spec-side stage-3 best is `some m`, `m` is a valid element of
the list and no valid element of the list has more trimmed text. -/
theorem specStage3Best_mem : ∀ (l : List Node) (m : Node), specStage3Best l = some m →
    m ∈ l ∧ isValidElem m = true ∧
    ∀ c ∈ l, isValidElem c = true → textLen c ≤ textLen m := by
  intro l
  induction l with
  | nil => intro m h; cases h
  | cons e rest ih =>
    intro m h
    cases hsr : specStage3Best rest with
    | none =>
      simp only [specStage3Best, hsr] at h
      by_cases he : isValidElem e = true
      · rw [if_pos he] at h
        cases h
        refine ⟨List.mem_cons_self _ _, he, ?_⟩
        intro c hc hcval
        rcases List.mem_cons.mp hc with rfl | hc'
        · exact le_refl _
        · rw [specStage3Best_none rest hsr c hc'] at hcval; cases hcval
      · rw [if_neg he] at h; cases h
    | some b =>
      simp only [specStage3Best, hsr] at h
      obtain ⟨hbmem, hbval, hbmax⟩ := ih b hsr
      by_cases he : isValidElem e = true
      · rw [if_pos he] at h
        by_cases hm : textLen b > textLen e
        · rw [if_pos hm] at h
          cases h
          refine ⟨List.mem_cons_of_mem _ hbmem, hbval, ?_⟩
          intro c hc hcval
          rcases List.mem_cons.mp hc with rfl | hc'
          · exact le_of_lt hm
          · exact hbmax c hc' hcval
        · rw [if_neg hm] at h
          cases h
          refine ⟨List.mem_cons_self _ _, he, ?_⟩
          intro c hc hcval
          rcases List.mem_cons.mp hc with rfl | hc'
          · exact le_refl _
          · exact le_trans (hbmax c hc' hcval) (not_lt.mp hm)
      · rw [if_neg he] at h
        cases h
        refine ⟨List.mem_cons_of_mem _ hbmem, hbval, ?_⟩
        intro c hc hcval
        rcases List.mem_cons.mp hc with rfl | hc'
        · exact absurd hcval he
        · exact hbmax c hc' hcval

/-! ## Claim C6: stage 3 of the Locator -/

/-- Stage-3 witness document: a single paragraph with 150 characters, so
stages 1 and 2 both fail and stage 3 returns the paragraph. -/
def c6doc : NodeList :=
  nodesOf [.elem 0 "p" [] (nodesOf [.text 1 (String.mk (List.replicate 150 'z'))])]

/-- Claim C6: when stages 1 and 2 both fail, the cascade returns the
stage-3 result, which equals the spec-side description: the
first-encountered element with strictly greatest trimmed text length among
those passing the validity filter, and none when no element passes. -/
theorem claim_C6 (doc : NodeList) (h1 : findContentBySelectors doc = none)
    (h2 : findContentByTextDensity doc = none) :
    extractMainContent doc = findLargestTextBlock doc ∧
    findLargestTextBlock doc = specStage3Best (allElemsL doc) ∧
    (∀ e, findLargestTextBlock doc = some e →
      e ∈ allElemsL doc ∧ isValidElem e = true ∧
      ∀ c ∈ allElemsL doc, isValidElem c = true → textLen c ≤ textLen e) ∧
    (findLargestTextBlock doc = none → ∀ c ∈ allElemsL doc, isValidElem c = false) := by
  have heq : findLargestTextBlock doc = specStage3Best (allElemsL doc) :=
    largestFold_none _
  refine ⟨by simp only [extractMainContent, h1, h2], heq, ?_, ?_⟩
  · intro e he
    exact specStage3Best_mem _ e (heq ▸ he)
  · intro hn
    exact specStage3Best_none _ (heq ▸ hn)

/-- Claim C6 witness: on the single-paragraph document stages 1 and 2 fail
and the cascade output is the stage-3 scan, which agrees with the
spec-side best. -/
theorem claim_C6_witness :
    extractMainContent c6doc = findLargestTextBlock c6doc ∧
    findLargestTextBlock c6doc = specStage3Best (allElemsL c6doc) :=
  ⟨(claim_C6 c6doc rfl rfl).1, (claim_C6 c6doc rfl rfl).2.1⟩

/-! ## Claim C2: stage 1 of the Locator -/

/-- First article of the C2 counterexample document: 50 characters of
text, so it fails the validity filter. -/
def c2art1 : Node := .elem 1 "article" [] (nodesOf [.text 2 (String.mk (List.replicate 50 'a'))])

/-- Second article of the C2 counterexample document: 200 characters of
text, so it matches a stage-1 selector and passes the validity filter. -/
def c2art2 : Node := .elem 3 "article" [] (nodesOf [.text 4 (String.mk (List.replicate 200 'b'))])

/-- Root of the C2 counterexample document. -/
def c2root : Node := .elem 0 "html" [] (nodesOf [c2art1, c2art2])

/-- The C2 counterexample document: the first `article` in document order
is invalid, the second is valid. -/
def c2doc : NodeList := nodesOf [c2root]

/-- Claim C2 counterexample: the second article matches a stage-1 selector
and passes the validity filter, yet the cascade returns the `html` root
(found by stage 3), which matches no stage-1 selector — because
`querySelector` only ever tests the first document-order match of each
selector. -/
theorem claim_C2_counterexample :
    matchesSomeContentSel c2art2 = true ∧ isValidElem c2art2 = true ∧
    c2art2 ∈ allElemsL c2doc ∧
    extractMainContent c2doc = some c2root ∧
    matchesSomeContentSel c2root = false :=
  ⟨rfl, by with_unfolding_all rfl, .tail _ (.tail _ (.head _)),
   by with_unfolding_all rfl, rfl⟩

/-- Claim C2 (amended): when some selector's first document-order match
passes the validity filter, the cascade returns stage 1's result without
consulting stages 2 and 3, and that result is an element of the tree that
matches a stage-1 selector and passes the validity filter. -/
theorem claim_C2_amended (doc : NodeList) (e : Node)
    (h : findContentBySelectors doc = some e) :
    extractMainContent doc = some e ∧ e ∈ allElemsL doc ∧
    matchesSomeContentSel e = true ∧ isValidElem e = true := by
  have hmain : extractMainContent doc = some e := by
    simp only [extractMainContent, h]
  have h' := h
  simp only [findContentBySelectors] at h'
  obtain ⟨s, hs, hfs⟩ := List.exists_of_findSome?_eq_some h'
  cases hq : querySelector doc s with
  | none => simp only [hq] at hfs; cases hfs
  | some e' =>
    simp only [hq] at hfs
    by_cases hv : isValidElem e' = true
    · rw [if_pos hv] at hfs
      cases hfs
      have hqf : (allElemsL doc).find? (fun x => matchesNode s x) = some e := hq
      refine ⟨hmain, List.mem_of_find?_eq_some hqf, ?_, hv⟩
      rw [matchesSomeContentSel]
      exact List.any_eq_true.mpr ⟨s, hs, List.find?_some hqf⟩
    · rw [if_neg hv] at hfs; cases hfs

/-- The C2 witness article: 150 characters, first match of `article`. -/
def c2wart : Node := .elem 1 "article" [] (nodesOf [.text 2 (String.mk (List.replicate 150 'c'))])

/-- The C2 witness document. -/
def c2wdoc : NodeList := nodesOf [.elem 0 "html" [] (nodesOf [c2wart])]

/-- Claim C2 amended, witness: on a document whose first `article` match
is valid, the cascade returns it. -/
theorem claim_C2_witness :
    extractMainContent c2wdoc = some c2wart ∧ matchesSomeContentSel c2wart = true :=
  ⟨(claim_C2_amended c2wdoc c2wart (by with_unfolding_all rfl)).1,
   (claim_C2_amended c2wdoc c2wart (by with_unfolding_all rfl)).2.2.1⟩

/-! ## Sanitizer infrastructure -/

mutual

/-- Every member of `allElems` is an element node. -/
theorem allElems_isElem : ∀ (t : Node), ∀ d ∈ allElems t, isElem d = true
  | .text _ _, d, hd => by cases hd
  | .elem i t a cs, d, hd => by
      simp only [allElems] at hd
      rcases List.mem_cons.mp hd with rfl | hd'
      · rfl
      · exact allElemsL_isElem cs d hd'

/-- Every member of `allElemsL` is an element node. -/
theorem allElemsL_isElem : ∀ (l : NodeList), ∀ d ∈ allElemsL l, isElem d = true
  | .nil, d, hd => by cases hd
  | .cons c cs, d, hd => by
      simp only [allElemsL] at hd
      rcases List.mem_append.mp hd with h1 | h2
      · exact allElems_isElem c d h1
      · exact allElemsL_isElem cs d h2

end

/-- On an element node, `matchesNode` is `matchSel` of its tag and
attributes. -/
theorem matchesNode_eq (s : Selector) (d : Node) (h : isElem d = true) :
    matchesNode s d = matchSel s (tagOf d) (attrsOf d) := by
  cases d with
  | elem i t a cs => rfl
  | text i str => cases h

mutual

/-- After removing the matches of `s`, no proper descendant matches `s`. -/
theorem removeMatching_clean : ∀ (s : Selector) (t : Node),
    ∀ d ∈ properDesc (removeMatching s t), matchesNode s d = false
  | s, .text _ _, d, hd => by cases hd
  | s, .elem i t a cs, d, hd => by
      simp only [removeMatching, properDesc] at hd
      exact removeMatchingL_clean s cs d hd

/-- List version of `removeMatching_clean`: no element remaining in the
processed sibling list matches `s`. -/
theorem removeMatchingL_clean : ∀ (s : Selector) (l : NodeList),
    ∀ d ∈ allElemsL (removeMatchingL s l), matchesNode s d = false
  | s, .nil, d, hd => by cases hd
  | s, .cons c cs, d, hd => by
      simp only [removeMatchingL] at hd
      by_cases hc : matchesNode s c = true
      · rw [if_pos hc] at hd
        exact removeMatchingL_clean s cs d hd
      · rw [if_neg hc] at hd
        simp only [allElemsL] at hd
        rcases List.mem_append.mp hd with h1 | h2
        · cases c with
          | text j str => cases h1
          | elem j u b ds =>
            simp only [removeMatching, allElems] at h1
            rcases List.mem_cons.mp h1 with rfl | h1'
            · exact Bool.not_eq_true _ ▸ hc
            · exact removeMatchingL_clean s ds d h1'
        · exact removeMatchingL_clean s cs d h2

end

mutual

/-- Every element remaining after `removeMatching` has the tag and
attributes of an element of the original subtree. -/
theorem removeMatching_info : ∀ (s : Selector) (t : Node),
    ∀ d ∈ allElems (removeMatching s t),
    ∃ d0 ∈ allElems t, tagOf d = tagOf d0 ∧ attrsOf d = attrsOf d0
  | s, .text _ _, d, hd => by cases hd
  | s, .elem i t a cs, d, hd => by
      simp only [removeMatching, allElems] at hd
      rcases List.mem_cons.mp hd with rfl | hd'
      · exact ⟨.elem i t a cs, List.mem_cons_self _ _, rfl, rfl⟩
      · obtain ⟨d0, hd0, hinfo⟩ := removeMatchingL_info s cs d hd'
        exact ⟨d0, List.mem_cons_of_mem _ hd0, hinfo⟩

/-- List version of `removeMatching_info`. -/
theorem removeMatchingL_info : ∀ (s : Selector) (l : NodeList),
    ∀ d ∈ allElemsL (removeMatchingL s l),
    ∃ d0 ∈ allElemsL l, tagOf d = tagOf d0 ∧ attrsOf d = attrsOf d0
  | s, .nil, d, hd => by cases hd
  | s, .cons c cs, d, hd => by
      simp only [removeMatchingL] at hd
      by_cases hc : matchesNode s c = true
      · rw [if_pos hc] at hd
        obtain ⟨d0, hd0, hinfo⟩ := removeMatchingL_info s cs d hd
        exact ⟨d0, by simp only [allElemsL]; exact List.mem_append_right _ hd0, hinfo⟩
      · rw [if_neg hc] at hd
        simp only [allElemsL] at hd
        rcases List.mem_append.mp hd with h1 | h2
        · obtain ⟨d0, hd0, hinfo⟩ := removeMatching_info s c d h1
          exact ⟨d0, by simp only [allElemsL]; exact List.mem_append_left _ hd0, hinfo⟩
        · obtain ⟨d0, hd0, hinfo⟩ := removeMatchingL_info s cs d h2
          exact ⟨d0, by simp only [allElemsL]; exact List.mem_append_right _ hd0, hinfo⟩

end

/-- `removeMatching` with any selector preserves "no proper descendant
matches `s`". -/
theorem removeMatching_preserve (s s' : Selector) (t : Node)
    (h : ∀ d ∈ properDesc t, matchesNode s d = false) :
    ∀ d ∈ properDesc (removeMatching s' t), matchesNode s d = false := by
  intro d hd
  cases t with
  | text i str => cases hd
  | elem i t a cs =>
    simp only [removeMatching, properDesc] at hd
    obtain ⟨d0, hd0, ht, ha⟩ := removeMatchingL_info s' cs d hd
    have he : isElem d = true := allElemsL_isElem _ d hd
    have he0 : isElem d0 = true := allElemsL_isElem cs d0 hd0
    rw [matchesNode_eq s d he, ht, ha, ← matchesNode_eq s d0 he0]
    exact h d0 hd0

/-- Applying a list of removals preserves "no proper descendant matches
`s`". -/
theorem removeFold_preserve : ∀ (sels : List Selector) (t : Node) (s : Selector),
    (∀ d ∈ properDesc t, matchesNode s d = false) →
    ∀ d ∈ properDesc (sels.foldl (fun acc x => removeMatching x acc) t),
      matchesNode s d = false := by
  intro sels
  induction sels with
  | nil => intro t s h d hd; exact h d hd
  | cons x sels' ih =>
    intro t s h d hd
    rw [List.foldl_cons] at hd
    exact ih (removeMatching x t) s (removeMatching_preserve s x t h) d hd

/-- After folding removals over a selector list, no proper descendant
matches any selector of the list. -/
theorem removeFold_clean : ∀ (sels : List Selector) (t : Node) (s : Selector), s ∈ sels →
    ∀ d ∈ properDesc (sels.foldl (fun acc x => removeMatching x acc) t),
      matchesNode s d = false := by
  intro sels
  induction sels with
  | nil => intro t s hs; cases hs
  | cons x sels' ih =>
    intro t s hs d hd
    rw [List.foldl_cons] at hd
    rcases List.mem_cons.mp hs with rfl | hs'
    · exact removeFold_preserve sels' (removeMatching s t) s (removeMatching_clean s t) d hd
    · exact ih (removeMatching x t) s hs' d hd

/-- No proper descendant of the noise-removed tree matches any noise
selector. -/
theorem removeNoise_clean (t : Node) :
    ∀ s ∈ noiseSelectors, ∀ d ∈ properDesc (removeNoise t), matchesNode s d = false :=
  fun s hs d hd => removeFold_clean noiseSelectors t s hs d hd

mutual

/-- Every element at or below a stripped subtree carries only allow-listed
attribute names. -/
theorem stripAllTree_attrs : ∀ (t : Node), ∀ d ∈ allElems (stripAllTree t),
    ∀ p ∈ attrsOf d, p.1 ∈ allowedAttributes
  | .text _ _, d, hd => by cases hd
  | .elem i t a cs, d, hd => by
      simp only [stripAllTree, allElems] at hd
      rcases List.mem_cons.mp hd with rfl | hd'
      · intro p hp
        simp only [attrsOf] at hp
        have := (List.mem_filter.mp hp).2
        simpa using this
      · exact stripAllTreeL_attrs cs d hd'

/-- List version of `stripAllTree_attrs`. -/
theorem stripAllTreeL_attrs : ∀ (l : NodeList), ∀ d ∈ allElemsL (stripAllTreeL l),
    ∀ p ∈ attrsOf d, p.1 ∈ allowedAttributes
  | .nil, d, hd => by cases hd
  | .cons c cs, d, hd => by
      simp only [stripAllTreeL, allElemsL] at hd
      rcases List.mem_append.mp hd with h1 | h2
      · exact stripAllTree_attrs c d h1
      · exact stripAllTreeL_attrs cs d h2

end

/-- Membership in `setAttr`: either the new pair or an original pair whose
name is unchanged, or an original pair. -/
theorem setAttr_mem {n v : String} {a : List (String × String)} {p : String × String}
    (hp : p ∈ setAttr n v a) : p = (n, v) ∨ p ∈ a := by
  rw [setAttr] at hp
  split_ifs at hp with hf
  · obtain ⟨q, hq, hpq⟩ := List.mem_map.mp hp
    by_cases hqn : q.1 == n
    · rw [if_pos hqn] at hpq; exact Or.inl hpq.symm
    · rw [if_neg hqn] at hpq; exact Or.inr (hpq ▸ hq)
  · rcases List.mem_append.mp hp with h1 | h2
    · exact Or.inr h1
    · simp only [List.mem_singleton] at h2
      exact Or.inl h2

/-- `imgFix` keeps only allow-listed names plus possibly `loading`. -/
theorem imgFix_names {a : List (String × String)}
    (h : ∀ p ∈ a, p.1 ∈ allowedAttributes)
    {p : String × String} (hp : p ∈ imgFix a) :
    p.1 ∈ allowedAttributes ∨ p.1 = "loading" := by
  rw [imgFix] at hp
  have hp2 := (List.mem_filter.mp hp).1
  have step1 : ∀ q ∈ (if attrFalsy "loading" a then setAttr "loading" "lazy" a else a),
      q.1 ∈ allowedAttributes ∨ q.1 = "loading" := by
    intro q hq
    split_ifs at hq
    · rcases setAttr_mem hq with rfl | hq'
      · exact Or.inr rfl
      · exact Or.inl (h q hq')
    · exact Or.inl (h q hq)
  set a1 := if attrFalsy "loading" a then setAttr "loading" "lazy" a else a with ha1
  rcases (by
    split_ifs at hp2
    · rcases setAttr_mem hp2 with rfl | hq'
      · exact Or.inl rfl
      · exact Or.inr hq'
    · exact Or.inr hp2 :
      p = ("alt", "图片") ∨ p ∈ a1) with rfl | hpa1
  · exact Or.inl (by decide)
  · exact step1 p hpa1

mutual

/-- If every element of a subtree carries only allow-listed attribute
names, after image normalization every element carries only allow-listed
names or `loading`. -/
theorem optImgTree_attrs : ∀ (t : Node),
    (∀ d ∈ allElems t, ∀ p ∈ attrsOf d, p.1 ∈ allowedAttributes) →
    ∀ d ∈ allElems (optImgTree t), ∀ p ∈ attrsOf d,
      p.1 ∈ allowedAttributes ∨ p.1 = "loading"
  | .text _ _, _, d, hd => by cases hd
  | .elem i t a cs, h, d, hd => by
      simp only [optImgTree, allElems] at hd
      have hroot : ∀ p ∈ a, p.1 ∈ allowedAttributes := by
        intro p hp
        exact h (.elem i t a cs) (List.mem_cons_self _ _) p hp
      have hrest : ∀ d ∈ allElemsL cs, ∀ p ∈ attrsOf d, p.1 ∈ allowedAttributes := by
        intro d' hd' p hp
        exact h d' (by simp only [allElems]; exact List.mem_cons_of_mem _ hd') p hp
      rcases List.mem_cons.mp hd with rfl | hd'
      · intro p hp
        simp only [attrsOf] at hp
        split_ifs at hp
        · exact imgFix_names hroot hp
        · exact Or.inl (hroot p hp)
      · exact optImgTreeL_attrs cs hrest d hd'

/-- List version of `optImgTree_attrs`. -/
theorem optImgTreeL_attrs : ∀ (l : NodeList),
    (∀ d ∈ allElemsL l, ∀ p ∈ attrsOf d, p.1 ∈ allowedAttributes) →
    ∀ d ∈ allElemsL (optImgTreeL l), ∀ p ∈ attrsOf d,
      p.1 ∈ allowedAttributes ∨ p.1 = "loading"
  | .nil, _, d, hd => by cases hd
  | .cons c cs, h, d, hd => by
      simp only [optImgTreeL, allElemsL] at hd
      rcases List.mem_append.mp hd with h1 | h2
      · exact optImgTree_attrs c
          (fun d' hd' => h d' (by simp only [allElemsL]; exact List.mem_append_left _ hd')) d h1
      · exact optImgTreeL_attrs cs
          (fun d' hd' => h d' (by simp only [allElemsL]; exact List.mem_append_right _ hd')) d h2

end

mutual

/-- Attribute stripping preserves the tag of every element position. -/
theorem stripAllTree_info : ∀ (t : Node), ∀ d ∈ allElems (stripAllTree t),
    ∃ d0 ∈ allElems t, tagOf d = tagOf d0
  | .text _ _, d, hd => by cases hd
  | .elem i t a cs, d, hd => by
      simp only [stripAllTree, allElems] at hd
      rcases List.mem_cons.mp hd with rfl | hd'
      · exact ⟨.elem i t a cs, List.mem_cons_self _ _, rfl⟩
      · obtain ⟨d0, hd0, ht⟩ := stripAllTreeL_info cs d hd'
        exact ⟨d0, List.mem_cons_of_mem _ hd0, ht⟩

/-- List version of `stripAllTree_info`. -/
theorem stripAllTreeL_info : ∀ (l : NodeList), ∀ d ∈ allElemsL (stripAllTreeL l),
    ∃ d0 ∈ allElemsL l, tagOf d = tagOf d0
  | .nil, d, hd => by cases hd
  | .cons c cs, d, hd => by
      simp only [stripAllTreeL, allElemsL] at hd
      rcases List.mem_append.mp hd with h1 | h2
      · obtain ⟨d0, hd0, ht⟩ := stripAllTree_info c d h1
        exact ⟨d0, by simp only [allElemsL]; exact List.mem_append_left _ hd0, ht⟩
      · obtain ⟨d0, hd0, ht⟩ := stripAllTreeL_info cs d h2
        exact ⟨d0, by simp only [allElemsL]; exact List.mem_append_right _ hd0, ht⟩

end

mutual

/-- Image normalization preserves the tag of every element position. -/
theorem optImgTree_info : ∀ (t : Node), ∀ d ∈ allElems (optImgTree t),
    ∃ d0 ∈ allElems t, tagOf d = tagOf d0
  | .text _ _, d, hd => by cases hd
  | .elem i t a cs, d, hd => by
      simp only [optImgTree, allElems] at hd
      rcases List.mem_cons.mp hd with rfl | hd'
      · exact ⟨.elem i t a cs, List.mem_cons_self _ _, rfl⟩
      · obtain ⟨d0, hd0, ht⟩ := optImgTreeL_info cs d hd'
        exact ⟨d0, List.mem_cons_of_mem _ hd0, ht⟩

/-- List version of `optImgTree_info`. -/
theorem optImgTreeL_info : ∀ (l : NodeList), ∀ d ∈ allElemsL (optImgTreeL l),
    ∃ d0 ∈ allElemsL l, tagOf d = tagOf d0
  | .nil, d, hd => by cases hd
  | .cons c cs, d, hd => by
      simp only [optImgTreeL, allElemsL] at hd
      rcases List.mem_append.mp hd with h1 | h2
      · obtain ⟨d0, hd0, ht⟩ := optImgTree_info c d h1
        exact ⟨d0, by simp only [allElemsL]; exact List.mem_append_left _ hd0, ht⟩
      · obtain ⟨d0, hd0, ht⟩ := optImgTreeL_info cs d h2
        exact ⟨d0, by simp only [allElemsL]; exact List.mem_append_right _ hd0, ht⟩

end

/-- Every proper descendant of a node is an element. -/
theorem properDesc_isElem (t : Node) : ∀ d ∈ properDesc t, isElem d = true := by
  cases t with
  | text i s => intro d hd; cases hd
  | elem i t a cs => exact fun d hd => allElemsL_isElem cs d hd

/-- Every proper descendant of a sanitized fragment carries only
allow-listed attribute names, or `loading` (which image normalization may
add). -/
theorem cleanContent_attrNames (k : Nat) (c frag : Node)
    (h : cleanContent k (some c) = some frag) :
    ∀ d ∈ properDesc frag, ∀ p ∈ attrsOf d, p.1 ∈ allowedAttributes ∨ p.1 = "loading" := by
  have hfrag : optimizeImages (cleanAttributes (removeNoise (cloneNode k c).1)) = frag :=
    Option.some.inj h
  cases hX : removeNoise (cloneNode k c).1 with
  | text i s =>
    rw [hX] at hfrag
    rw [← hfrag]
    intro d hd
    simp only [cleanAttributes, optimizeImages, properDesc] at hd
    cases hd
  | elem i t a cs =>
    rw [hX] at hfrag
    rw [← hfrag]
    intro d hd
    simp only [cleanAttributes, optimizeImages, properDesc] at hd
    exact optImgTreeL_attrs (stripAllTreeL cs) (stripAllTreeL_attrs cs) d hd

/-- If every attribute name of `a` is allow-listed or `loading`, then any
name outside that set is absent. -/
theorem getAttr_none_of_names (n : String) (a : List (String × String))
    (h : ∀ p ∈ a, p.1 ∈ allowedAttributes ∨ p.1 = "loading")
    (hn : n ∉ allowedAttributes) (hn2 : n ≠ "loading") : getAttr n a = none := by
  rw [getAttr]
  cases hf : a.find? (fun p => p.1 == n) with
  | none => rfl
  | some p =>
    exfalso
    have hpe := List.find?_some hf
    have hpn : p.1 = n := by simpa using hpe
    have := h p (List.mem_of_find?_eq_some hf)
    rw [hpn] at this
    rcases this with h1 | h2
    · exact hn h1
    · exact hn2 h2

/-- General form of noise-freeness for sanitized fragments: no proper
descendant of the fragment matches any noise selector. -/
theorem cleanContent_noNoise (k : Nat) (c frag : Node)
    (h : cleanContent k (some c) = some frag) :
    ∀ d ∈ properDesc frag, ∀ s ∈ noiseSelectors, matchesNode s d = false := by
  intro d hd s hs
  have he : isElem d = true := properDesc_isElem frag d hd
  have hnames := cleanContent_attrNames k c frag h d hd
  have hfrag : optimizeImages (cleanAttributes (removeNoise (cloneNode k c).1)) = frag :=
    Option.some.inj h
  cases s with
  | tagSel x =>
    cases hX : removeNoise (cloneNode k c).1 with
    | text i str =>
      rw [hX] at hfrag
      rw [← hfrag] at hd
      simp only [cleanAttributes, optimizeImages, properDesc] at hd
      cases hd
    | elem i t a cs =>
      rw [hX] at hfrag
      rw [← hfrag] at hd
      simp only [cleanAttributes, optimizeImages, properDesc] at hd
      obtain ⟨d1, hd1, ht1⟩ := optImgTreeL_info _ d hd
      obtain ⟨d0, hd0, ht0⟩ := stripAllTreeL_info cs d1 hd1
      have hclean := removeNoise_clean (cloneNode k c).1 (.tagSel x) hs d0
        (by rw [hX]; exact hd0)
      have he0 : isElem d0 = true := allElemsL_isElem cs d0 hd0
      rw [matchesNode_eq _ d he]
      rw [matchesNode_eq _ d0 he0] at hclean
      simp only [matchSel] at hclean ⊢
      rw [ht1, ht0]
      exact hclean
  | classSel cname =>
    rw [matchesNode_eq _ d he]
    simp only [matchSel]
    rw [getAttr_none_of_names "class" (attrsOf d) hnames (by decide) (by decide)]
  | idSel iname =>
    rw [matchesNode_eq _ d he]
    simp only [matchSel]
    rw [getAttr_none_of_names "id" (attrsOf d) hnames (by decide) (by decide)]
    rfl
  | attrEq n v =>
    simp [noiseSelectors] at hs
  | attrContains n sub =>
    rw [matchesNode_eq _ d he]
    simp only [matchSel]
    have hn : n = "class" ∨ n = "id" := by
      simp only [noiseSelectors, List.mem_cons] at hs
      rcases hs with h' | h' | h' | h' | h' | h' | h' | h' | h' | h' | h' | h' | h' |
        h' | h' | h' | h' | h' | h' | h' | h' | h' <;> (try cases h') <;> simp
    rcases hn with rfl | rfl
    · rw [getAttr_none_of_names "class" (attrsOf d) hnames (by decide) (by decide)]
    · rw [getAttr_none_of_names "id" (attrsOf d) hnames (by decide) (by decide)]

/-! ## Claim C8: noise removal -/

/-- A candidate whose root itself is a `header` element. -/
def c8bad : Node := .elem 0 "header" [] (nodesOf [.text 1 "x"])

/-- The sanitized fragment of `c8bad`: the root survives noise removal. -/
def c8badFrag : Node := .elem 10 "header" [] (nodesOf [.text 11 "x"])

/-- Claim C8 counterexample: sanitizing a candidate whose root is a
`header` yields a fragment whose root still matches the noise selector
`header` — `querySelectorAll` never returns the root, so the root is not
subject to noise removal. -/
theorem claim_C8_counterexample :
    cleanContent 10 (some c8bad) = some c8badFrag ∧
    Selector.tagSel "header" ∈ noiseSelectors ∧
    matchesNode (.tagSel "header") c8badFrag = true :=
  ⟨rfl, .head _, rfl⟩

/-- Claim C8 (amended): for every candidate, no element strictly below the
root of the sanitized fragment matches any configured noise selector (the
fragment root itself is exempt, since `querySelectorAll` only returns
descendants). -/
theorem claim_C8_amended (k : Nat) (c frag : Node)
    (h : cleanContent k (some c) = some frag) :
    ∀ d ∈ properDesc frag, ∀ s ∈ noiseSelectors, matchesNode s d = false :=
  cleanContent_noNoise k c frag h

/-- Claim C8 witness candidate: a div containing a paragraph and a nested
`header`. -/
def c8w : Node := .elem 0 "div" [] (nodesOf [.elem 1 "p" [] .nil, .elem 2 "header" [] .nil])

/-- The paragraph as it appears (with its cloned identity) in the
sanitized fragment of `c8w`. -/
def c8wp : Node := .elem 31 "p" [] .nil

/-- Claim C8 amended, witness: applied to the concrete candidate, the
surviving descendant does not match the `header` noise selector. -/
theorem claim_C8_witness : matchesNode (.tagSel "header") c8wp = false :=
  claim_C8_amended 30 c8w (.elem 30 "div" [] (nodesOf [c8wp])) rfl c8wp
    (.head _) (.tagSel "header") (.head _)

/-! ## Claim C1: attribute stripping -/

/-- A candidate root carrying disallowed attributes. -/
def c1bad : Node :=
  .elem 0 "div" [("src", "x"), ("onclick", "y"), ("style", "z"), ("class", "c"), ("alt", "w")]
    (nodesOf [.text 1 "hi"])

/-- The sanitized fragment of `c1bad`: the root keeps all five
attributes. -/
def c1badFrag : Node :=
  .elem 50 "div" [("src", "x"), ("onclick", "y"), ("style", "z"), ("class", "c"), ("alt", "w")]
    (nodesOf [.text 51 "hi"])

/-- Claim C1 counterexample: the copied candidate root retains its
`onclick` attribute after sanitization, although `onclick` is not in the
allow-list — the `TreeWalker` of `cleanAttributes` never visits its
root. -/
theorem claim_C1_counterexample :
    cleanContent 50 (some c1bad) = some c1badFrag ∧
    ("onclick", "y") ∈ attrsOf c1badFrag ∧ "onclick" ∉ allowedAttributes :=
  ⟨rfl, .tail _ (.head _), by decide⟩

/-- A candidate whose child carries the spec's example attribute set. -/
def c1ex : Node :=
  .elem 0 "div" []
    (nodesOf [.elem 1 "div"
      [("src", "x"), ("onclick", "y"), ("style", "z"), ("class", "c"), ("alt", "w")]
      (nodesOf [.text 2 "hello"])])

/-- The child of `c1ex` as sanitized: exactly `src` and `alt` survive. -/
def c1exChild : Node := .elem 21 "div" [("src", "x"), ("alt", "w")] (nodesOf [.text 22 "hello"])

/-- The sanitized fragment of `c1ex`. -/
def c1exFrag : Node := .elem 20 "div" [] (nodesOf [c1exChild])

/-- Claim C1 (amended): every element strictly below the fragment root
carries only allow-listed attribute names (plus possibly `loading`, which
image normalization adds to images); the copied candidate root itself is
skipped by the attribute-stripping traversal.  A non-image descendant with
attributes `{src, onclick, style, class, alt}` retains exactly
`{src, alt}`. -/
theorem claim_C1_amended :
    (∀ (k : Nat) (c frag : Node), cleanContent k (some c) = some frag →
      ∀ d ∈ properDesc frag, ∀ p ∈ attrsOf d,
        p.1 ∈ allowedAttributes ∨ p.1 = "loading") ∧
    cleanContent 20 (some c1ex) = some c1exFrag :=
  ⟨cleanContent_attrNames, rfl⟩

/-- Claim C1 amended, witness: the surviving attribute of the concrete
sanitized child is allow-listed. -/
theorem claim_C1_witness : "src" ∈ allowedAttributes ∨ "src" = "loading" :=
  claim_C1_amended.1 20 c1ex c1exFrag rfl c1exChild (.head _) ("src", "x") (.head _)

/-! ## Claim C7: the Sanitizer works on an independent copy -/

mutual

/-- Erase node identities (for comparing tree structure and content). -/
def stripIds : Node → Node
  | .text _ s => .text 0 s
  | .elem _ t a cs => .elem 0 t a (stripIdsL cs)

/-- Erase node identities in a list of sibling subtrees. -/
def stripIdsL : NodeList → NodeList
  | .nil => .nil
  | .cons c cs => .cons (stripIds c) (stripIdsL cs)

end

mutual

/-- The clone counter never decreases. -/
theorem cloneNode_counter : ∀ (k : Nat) (t : Node), k ≤ (cloneNode k t).2
  | k, .text _ _ => by show k ≤ k + 1; omega
  | k, .elem _ t a cs => by
      show k ≤ (cloneNodeL (k + 1) cs).2
      have h := cloneNodeL_counter (k + 1) cs
      omega

/-- List version of `cloneNode_counter`. -/
theorem cloneNodeL_counter : ∀ (k : Nat) (l : NodeList), k ≤ (cloneNodeL k l).2
  | _, .nil => le_refl _
  | k, .cons c cs => by
      show k ≤ (cloneNodeL (cloneNode k c).2 cs).2
      have h1 := cloneNode_counter k c
      have h2 := cloneNodeL_counter (cloneNode k c).2 cs
      omega

end

mutual

/-- Every identity of a clone is at least the starting counter: clones are
fresh. -/
theorem cloneNode_ids : ∀ (k : Nat) (t : Node), ∀ j ∈ nodeIds (cloneNode k t).1, k ≤ j
  | k, .text _ _, j, hj => by
      have hj' : j ∈ [k] := hj
      simp only [List.mem_singleton] at hj'
      omega
  | k, .elem _ t a cs, j, hj => by
      have hj' : j ∈ k :: nodeIdsL (cloneNodeL (k + 1) cs).1 := hj
      rcases List.mem_cons.mp hj' with rfl | hj2
      · exact le_refl _
      · have := cloneNodeL_ids (k + 1) cs j hj2
        omega

/-- List version of `cloneNode_ids`. -/
theorem cloneNodeL_ids : ∀ (k : Nat) (l : NodeList), ∀ j ∈ nodeIdsL (cloneNodeL k l).1, k ≤ j
  | _, .nil, j, hj => by cases hj
  | k, .cons c cs, j, hj => by
      have hj' : j ∈ nodeIds (cloneNode k c).1 ++
          nodeIdsL (cloneNodeL (cloneNode k c).2 cs).1 := hj
      rcases List.mem_append.mp hj' with h1 | h2
      · exact cloneNode_ids k c j h1
      · have hc := cloneNode_counter k c
        have := cloneNodeL_ids (cloneNode k c).2 cs j h2
        omega

end

mutual

/-- Node removal never introduces identities. -/
theorem removeMatching_ids : ∀ (s : Selector) (t : Node),
    ∀ j ∈ nodeIds (removeMatching s t), j ∈ nodeIds t
  | _, .text _ _, _, hj => hj
  | s, .elem i t a cs, j, hj => by
      have hj' : j ∈ i :: nodeIdsL (removeMatchingL s cs) := hj
      rcases List.mem_cons.mp hj' with rfl | hj2
      · exact .head _
      · exact List.mem_cons_of_mem _ (removeMatchingL_ids s cs j hj2)

/-- List version of `removeMatching_ids`. -/
theorem removeMatchingL_ids : ∀ (s : Selector) (l : NodeList),
    ∀ j ∈ nodeIdsL (removeMatchingL s l), j ∈ nodeIdsL l
  | _, .nil, _, hj => hj
  | s, .cons c cs, j, hj => by
      rw [removeMatchingL] at hj
      by_cases hc : matchesNode s c = true
      · rw [if_pos hc] at hj
        show j ∈ nodeIds c ++ nodeIdsL cs
        exact List.mem_append_right _ (removeMatchingL_ids s cs j hj)
      · rw [if_neg hc] at hj
        have hj' : j ∈ nodeIds (removeMatching s c) ++ nodeIdsL (removeMatchingL s cs) := hj
        show j ∈ nodeIds c ++ nodeIdsL cs
        rcases List.mem_append.mp hj' with h1 | h2
        · exact List.mem_append_left _ (removeMatching_ids s c j h1)
        · exact List.mem_append_right _ (removeMatchingL_ids s cs j h2)

end

/-- Folded noise removal never introduces identities. -/
theorem removeFold_ids : ∀ (sels : List Selector) (t : Node),
    ∀ j ∈ nodeIds (sels.foldl (fun acc x => removeMatching x acc) t), j ∈ nodeIds t := by
  intro sels
  induction sels with
  | nil => intro t j hj; exact hj
  | cons x sels' ih =>
    intro t j hj
    rw [List.foldl_cons] at hj
    exact removeMatching_ids x t j (ih (removeMatching x t) j hj)

mutual

/-- Attribute stripping preserves node identities. -/
theorem stripAllTree_ids : ∀ t : Node, nodeIds (stripAllTree t) = nodeIds t
  | .text _ _ => rfl
  | .elem i t a cs => by
      show i :: nodeIdsL (stripAllTreeL cs) = i :: nodeIdsL cs
      rw [stripAllTreeL_ids cs]

/-- List version of `stripAllTree_ids`. -/
theorem stripAllTreeL_ids : ∀ l : NodeList, nodeIdsL (stripAllTreeL l) = nodeIdsL l
  | .nil => rfl
  | .cons c cs => by
      show nodeIds (stripAllTree c) ++ nodeIdsL (stripAllTreeL cs) = nodeIds c ++ nodeIdsL cs
      rw [stripAllTree_ids c, stripAllTreeL_ids cs]

end

mutual

/-- Image normalization preserves node identities. -/
theorem optImgTree_ids : ∀ t : Node, nodeIds (optImgTree t) = nodeIds t
  | .text _ _ => rfl
  | .elem i t a cs => by
      show i :: nodeIdsL (optImgTreeL cs) = i :: nodeIdsL cs
      rw [optImgTreeL_ids cs]

/-- List version of `optImgTree_ids`. -/
theorem optImgTreeL_ids : ∀ l : NodeList, nodeIdsL (optImgTreeL l) = nodeIdsL l
  | .nil => rfl
  | .cons c cs => by
      show nodeIds (optImgTree c) ++ nodeIdsL (optImgTreeL cs) = nodeIds c ++ nodeIdsL cs
      rw [optImgTree_ids c, optImgTreeL_ids cs]

end

/-- `cleanAttributes` preserves node identities. -/
theorem cleanAttributes_ids (t : Node) : nodeIds (cleanAttributes t) = nodeIds t := by
  cases t with
  | text i s => rfl
  | elem i t a cs =>
    show i :: nodeIdsL (stripAllTreeL cs) = i :: nodeIdsL cs
    rw [stripAllTreeL_ids cs]

/-- `optimizeImages` preserves node identities. -/
theorem optimizeImages_ids (t : Node) : nodeIds (optimizeImages t) = nodeIds t := by
  cases t with
  | text i s => rfl
  | elem i t a cs =>
    show i :: nodeIdsL (optImgTreeL cs) = i :: nodeIdsL cs
    rw [optImgTreeL_ids cs]

mutual

/-- The clone is structurally identical to the original up to node
identities: `cloneNode(true)` is a faithful deep copy. -/
theorem cloneNode_faithful : ∀ (k : Nat) (t : Node), stripIds (cloneNode k t).1 = stripIds t
  | _, .text _ _ => rfl
  | k, .elem _ t a cs => by
      show Node.elem 0 t a (stripIdsL (cloneNodeL (k + 1) cs).1) = .elem 0 t a (stripIdsL cs)
      rw [cloneNodeL_faithful (k + 1) cs]

/-- List version of `cloneNode_faithful`. -/
theorem cloneNodeL_faithful : ∀ (k : Nat) (l : NodeList),
    stripIdsL (cloneNodeL k l).1 = stripIdsL l
  | _, .nil => rfl
  | k, .cons c cs => by
      show NodeList.cons (stripIds (cloneNode k c).1)
          (stripIdsL (cloneNodeL (cloneNode k c).2 cs).1) =
        .cons (stripIds c) (stripIdsL cs)
      rw [cloneNode_faithful k c, cloneNodeL_faithful (cloneNode k c).2 cs]

end

/-- Claim C7: the Sanitizer operates only on a deep, independent copy.
When every identity of the candidate is below the clone counter, every
node of the sanitized fragment has a fresh identity (at least the
counter), so the fragment shares no node identity with the original
candidate — all destructive operations act on the copy — and the copy is
structurally identical to the original up to identities; the original
value is never modified (the embedding threads it unchanged). -/
theorem claim_C7 (c : Node) (k : Nat) (frag : Node)
    (hlt : ∀ i ∈ nodeIds c, i < k)
    (h : cleanContent k (some c) = some frag) :
    (∀ j ∈ nodeIds frag, k ≤ j) ∧
    (∀ i ∈ nodeIds c, i ∉ nodeIds frag) ∧
    stripIds (cloneNode k c).1 = stripIds c := by
  have hfrag : optimizeImages (cleanAttributes (removeNoise (cloneNode k c).1)) = frag :=
    Option.some.inj h
  have hsub : ∀ j ∈ nodeIds frag, j ∈ nodeIds (cloneNode k c).1 := by
    intro j hj
    rw [← hfrag, optimizeImages_ids, cleanAttributes_ids] at hj
    simp only [removeNoise] at hj
    exact removeFold_ids noiseSelectors _ j hj
  have hge : ∀ j ∈ nodeIds frag, k ≤ j := fun j hj => cloneNode_ids k c j (hsub j hj)
  refine ⟨hge, ?_, cloneNode_faithful k c⟩
  intro i hi hmem
  have h1 := hge i hmem
  have h2 := hlt i hi
  omega

/-- Claim C7 witness candidate. -/
def c7cand : Node := .elem 0 "div" [] (nodesOf [.text 1 "x"])

/-- Claim C7 witness fragment: the sanitized copy of `c7cand` with clone
counter 2. -/
def c7frag : Node := .elem 2 "div" [] (nodesOf [.text 3 "x"])

/-- Claim C7 witness: no identity of the original candidate occurs in the
sanitized fragment. -/
theorem claim_C7_witness : 0 ∉ nodeIds c7frag ∧ 1 ∉ nodeIds c7frag :=
  ⟨(claim_C7 c7cand 2 c7frag (by decide) rfl).2.1 0 (.head _),
   (claim_C7 c7cand 2 c7frag (by decide) rfl).2.1 1 (.tail _ (.head _))⟩
